import Mathlib

/-!
# Verification of the `rust-spoa` consensus interface

This file embeds the public entry point `poa_consensus` of `src/src/lib.rs`
(a safe Rust wrapper around the SPOA partial-order-alignment engine) and a
model of the native engine it calls.

The wrapper in `lib.rs` allocates a zero-filled buffer of length
`consensus_max_length`, hands it to the foreign function `poa_func`
together with the sequences, the alignment mode and the four scores,
receives back a length, and truncates the buffer to that length.  The
foreign function itself (`src/poa_func.cpp` plus the vendored spoa C++
library, built by `build.rs`) is part of the repository but its sources are
not available here; it is therefore modelled from the specification
(sections 3, 4 and 6): an alignment graph is seeded from the first
sequence, every further sequence is folded in by an affine-gap
dynamic-programming aligner followed by a graph update, and the consensus
is the heaviest path of the final graph, written into the caller's buffer
truncated to the buffer size.

Symbols are byte values, represented as `Nat`.  Scores are `Int`
(the Rust side passes `i32`; no score computed here approaches the `i32`
range, and the `as i32` length casts of the wrapper are likewise only
exercised far below `2^31` in every statement of this file).
-/

/-- A byte symbol of a sequence. -/
abbrev Symb := Nat

/-- Modelled from the spec (section 3, "Node"): a graph node holds one
symbol, its ordered incoming edges as `(source id, weight)` pairs, the
weight of the edge from the virtual start anchor (`0` meaning absent), and
the ids of its aligned alternatives (nodes of the same column carrying a
different symbol). -/
structure GNode where
  symbol : Symb
  inE : List (Nat × Nat)
  fromStart : Nat
  aligned : List Nat
deriving Repr, DecidableEq

instance : Inhabited GNode := ⟨⟨0, [], 0, []⟩⟩

/-- Modelled from the spec (section 3, "AlignmentGraph"): a node arena
(node id = position in `nodes`) plus the edges into the virtual end
anchor as `(source id, weight)` pairs. -/
structure Graph where
  nodes : List GNode
  endE : List (Nat × Nat)
deriving Repr, DecidableEq

/-- Number of nodes of the graph. -/
def Graph.size (g : Graph) : Nat := g.nodes.length

/-- The node with the given id (default node if out of range). -/
def Graph.nodeAt (g : Graph) (v : Nat) : GNode := g.nodes.getD v default

/-- Symbol of node `v`. -/
def Graph.symAt (g : Graph) (v : Nat) : Symb := (g.nodeAt v).symbol

/-- Incoming edges of node `v`. -/
def Graph.preds (g : Graph) (v : Nat) : List (Nat × Nat) := (g.nodeAt v).inE

/-- Weight of the edge from the start anchor into `v` (`0` = absent). -/
def Graph.fromStartW (g : Graph) (v : Nat) : Nat := (g.nodeAt v).fromStart

/-- Modelled from the spec (section 4.1, `merge_edge`): increment the
weight of the edge from `u` if present, else create it with weight 1. -/
def bump (es : List (Nat × Nat)) (u : Nat) : List (Nat × Nat) :=
  if es.any (fun e => e.1 == u) then
    es.map (fun e => if e.1 == u then (e.1, e.2 + 1) else e)
  else es ++ [(u, 1)]

/-- Replace node `v` by `f` applied to it. -/
def Graph.modNode (g : Graph) (v : Nat) (f : GNode → GNode) : Graph :=
  { g with nodes := g.nodes.set v (f (g.nodeAt v)) }

/-- Merge the edge from `prev` (`none` = start anchor) into node `v`. -/
def Graph.wire (g : Graph) (prev : Option Nat) (v : Nat) : Graph :=
  match prev with
  | none => g.modNode v (fun nd => { nd with fromStart := nd.fromStart + 1 })
  | some p => g.modNode v (fun nd => { nd with inE := bump nd.inE p })

/-- Append a fresh node to the arena; returns the new graph and the id. -/
def Graph.addNode (g : Graph) (c : Symb) (al : List Nat) : Graph × Nat :=
  ({ g with nodes := g.nodes ++ [{ symbol := c, inE := [], fromStart := 0, aligned := al }] },
   g.nodes.length)

/-- Modelled from the spec (section 4.1, `seed`): the chain of nodes built
from `s` starting at id `i0`; node `i` carries `s[i]`, is wired from its
chain predecessor with weight 1, and the first node from the start anchor. -/
def seedNodesFrom (i0 : Nat) : List Symb → List GNode
  | [] => []
  | c :: rest =>
      { symbol := c,
        inE := if i0 = 0 then [] else [(i0 - 1, 1)],
        fromStart := if i0 = 0 then 1 else 0,
        aligned := [] } :: seedNodesFrom (i0 + 1) rest

/-- Modelled from the spec (section 4.1, `seed` and section 3 lifecycle):
the graph seeded from the first sequence — a linear chain, each edge of
weight 1, whose last node is wired to the end anchor. -/
def seed (s : List Symb) : Graph :=
  { nodes := seedNodesFrom 0 s,
    endE := if s.length = 0 then [] else [(s.length - 1, 1)] }

/-- Modelled from the spec (section 3, "Traceback"): the alignment
operations produced by the aligner for one sequence. -/
inductive TOp where
  | mtch (v : Nat)
  | mism (v : Nat) (c : Symb)
  | ins (c : Symb)
  | del (v : Nat)
deriving Repr, DecidableEq

/-- Modelled from the spec (section 4.3, GraphUpdater): apply one traceback
operation, given the last visited/created node (`none` before the first
symbol-consuming step).  A mismatch reuses an existing aligned alternative
carrying the same symbol (section 3 keeps one node per distinct symbol per
column and increments edge weights on reuse), otherwise it creates a new
node cross-linked with the whole aligned set. -/
def applyOp (g : Graph) (prev : Option Nat) : TOp → Graph × Option Nat
  | .mtch v => (g.wire prev v, some v)
  | .del _ => (g, prev)
  | .ins c =>
      let p := g.addNode c []
      (p.1.wire prev p.2, some p.2)
  | .mism v c =>
      match (g.nodeAt v).aligned.find? (fun a => g.symAt a == c) with
      | some a => (g.wire prev a, some a)
      | none =>
          let alts := (g.nodeAt v).aligned ++ [v]
          let p := g.addNode c alts
          let g2 := alts.foldl
            (fun gg w => gg.modNode w (fun nd => { nd with aligned := nd.aligned ++ [p.2] })) p.1
          (g2.wire prev p.2, some p.2)

/-- Modelled from the spec (section 4.3): fold a whole traceback into the
graph, then wire the last visited/created node to the end anchor. -/
def applyTrace (g : Graph) (ops : List TOp) : Graph :=
  let st := ops.foldl (fun (st : Graph × Option Nat) op => applyOp st.1 st.2 op) (g, none)
  match st.2 with
  | none => st.1
  | some p => { st.1 with endE := bump st.1.endE p }

/-- Large negative sentinel standing for minus infinity in DP cells. -/
def NEG : Int := -1000000000

/-- Maximum of a list of scores, floored at `NEG`. -/
def listMaxI (l : List Int) : Int := l.foldl max NEG

/-- Insert into a list kept in decreasing order. -/
def sortDescIns (x : Nat) : List Nat → List Nat
  | [] => [x]
  | y :: ys => if x ≥ y then x :: y :: ys else y :: sortDescIns x ys

/-- Sort a list of node ids in decreasing order. -/
def sortDesc (l : List Nat) : List Nat := l.foldr sortDescIns []

/-- Predecessors of `v` as seen by the aligner, `none` standing for the
virtual root (start anchor); real ids in decreasing order so that the
traceback's tie-break prefers the larger node id. -/
def alignPreds (g : Graph) (v : Nat) : List (Option Nat) :=
  (sortDesc ((g.preds v).map (fun e => e.1))).map some ++
    (if g.fromStartW v > 0 then [none] else [])

/-- `true` when every edge source in `es` is already placed. -/
def allPlaced (placed : List Bool) (es : List (Nat × Nat)) : Bool :=
  es.all (fun e => placed.getD e.1 false)

/-- Least unplaced node id whose predecessors are all placed. -/
def findReady (g : Graph) (placed : List Bool) : Option Nat :=
  (List.range g.size).find? (fun v => !(placed.getD v false) && allPlaced placed (g.preds v))

/-- Kahn-style topological ordering, fuelled by the node count. -/
def topoGo (g : Graph) : Nat → List Bool → List Nat
  | 0, _ => []
  | f + 1, placed =>
      match findReady g placed with
      | none => []
      | some v => v :: topoGo g f (placed.set v true)

/-- Modelled from the spec (section 4.1, `topological_order`): nodes in an
order with all edges pointing forward. -/
def topoOrder (g : Graph) : List Nat := topoGo g g.size (List.replicate g.size false)

/-- One row of the three DP tables of the aligner (section 4.2): values of
`M`, `I` and `D` at one sequence position, for the virtual root and for
every node id. -/
structure Row where
  mRoot : Int
  iRoot : Int
  mv : List Int
  iv : List Int
  dv : List Int
deriving Repr

instance : Inhabited Row := ⟨⟨NEG, NEG, [], [], []⟩⟩

/-- `M` value of the row at `u` (`none` = virtual root). -/
def Row.getM (r : Row) : Option Nat → Int
  | none => r.mRoot
  | some v => r.mv.getD v NEG

/-- `I` value of the row at `u`. -/
def Row.getI (r : Row) : Option Nat → Int
  | none => r.iRoot
  | some v => r.iv.getD v NEG

/-- `D` value of the row at `u` (the root has no deletion state). -/
def Row.getDel (r : Row) : Option Nat → Int
  | none => NEG
  | some v => r.dv.getD v NEG

/-- Match/mismatch score of two symbols (section 4.2, `subscore`). -/
def subScore (ms mm : Int) (a b : Symb) : Int := if a == b then ms else mm

/-- Row `i = 0` of the DP tables (section 4.2 boundary handling): the root
cell is `0`; in Global mode the `D` chain is initialized through
`gap_open`/`gap_extend`; SemiGlobal mode makes leading deletions free;
Local mode lets an alignment start anywhere at score `0`. -/
def row0 (g : Graph) (order : List Nat) (go ge : Int) (at_ : Int) : Row :=
  let init : Row :=
    { mRoot := 0, iRoot := NEG,
      mv := List.replicate g.size NEG,
      iv := List.replicate g.size NEG,
      dv := List.replicate g.size NEG }
  if at_ = 0 then { init with mv := List.replicate g.size 0 }
  else if at_ = 2 then { init with dv := List.replicate g.size 0 }
  else
    order.foldl (fun r v =>
      let dval := listMaxI ((alignPreds g v).map
        (fun u => max (r.getM u + go) (r.getDel u + ge)))
      { r with dv := r.dv.set v dval }) init

/-- Running maximum cell of the table, for the Local-mode traceback start. -/
structure BestCell where
  val : Int
  i : Nat
  v : Nat
deriving Repr

/-- Row `i ≥ 1` of the DP tables, by the recurrences of section 4.2,
processing nodes in topological order; also updates the running maximum
cell (Local mode clamps `M` at zero). -/
def rowStep (g : Graph) (order : List Nat) (ms mm go ge : Int) (at_ : Int)
    (prev : Row) (c : Symb) (iIdx : Nat) (bc : BestCell) : Row × BestCell :=
  let init : Row :=
    { mRoot := NEG,
      iRoot := max (prev.mRoot + go) (prev.iRoot + ge),
      mv := List.replicate g.size NEG,
      iv := List.replicate g.size NEG,
      dv := List.replicate g.size NEG }
  order.foldl (fun (st : Row × BestCell) v =>
    let r := st.1
    let mval0 := subScore ms mm c (g.symAt v) +
      listMaxI ((alignPreds g v).map
        (fun u => max (prev.getM u) (max (prev.getI u) (prev.getDel u))))
    let mval := if at_ = 0 then max mval0 0 else mval0
    let ival := max (prev.getM (some v) + go) (prev.getI (some v) + ge)
    let dval := listMaxI ((alignPreds g v).map
      (fun u => max (r.getM u + go) (r.getDel u + ge)))
    let r2 := { r with mv := r.mv.set v mval, iv := r.iv.set v ival, dv := r.dv.set v dval }
    let bc2 := if mval > st.2.val then ⟨mval, iIdx, v⟩ else st.2
    (r2, bc2)) (init, bc)

/-- All DP rows for the sequence tail, threading the previous row, the row
index and the running maximum cell. -/
def buildRowsGo (g : Graph) (order : List Nat) (ms mm go ge : Int) (at_ : Int) :
    List Symb → Row → Nat → BestCell → List Row × BestCell
  | [], _, _, bc => ([], bc)
  | c :: rest, prev, iIdx, bc =>
      let p := rowStep g order ms mm go ge at_ prev c iIdx bc
      let q := buildRowsGo g order ms mm go ge at_ rest p.1 (iIdx + 1) p.2
      (p.1 :: q.1, q.2)

/-- The full list of DP rows (index `i` = row `i`) and the running maximum
cell of the table. -/
def buildRows (g : Graph) (order : List Nat) (S : List Symb) (ms mm go ge : Int)
    (at_ : Int) : List Row × BestCell :=
  let r0 := row0 g order go ge at_
  let q := buildRowsGo g order ms mm go ge at_ S r0 1 ⟨NEG, 0, 0⟩
  (r0 :: q.1, q.2)

/-- Which of the three DP tables a traceback cell lives in. -/
inductive DPMat where
  | M
  | I
  | D
deriving Repr, DecidableEq

/-- A traceback position: sequence index, node (`none` = virtual root) and
table. -/
structure TBState where
  i : Nat
  u : Option Nat
  mat : DPMat
deriving Repr, DecidableEq

/-- Value of the DP cell a traceback position points at. -/
def stateVal (rows : List Row) (st : TBState) : Int :=
  let r := rows.getD st.i default
  match st.mat with
  | .M => r.getM st.u
  | .I => r.getI st.u
  | .D => r.getDel st.u

/-- Traceback start (section 4.2): Global starts at the end anchor, i.e.
the best final cell among the nodes wired to it; SemiGlobal has free
trailing deletions, so the best final cell among all nodes; Local starts
at the running maximum cell.  Ties prefer the larger node id, then the
table order `M`, `D`, `I`. -/
def chooseStart (g : Graph) (rows : List Row) (n : Nat) (at_ : Int) (bc : BestCell) :
    Option TBState :=
  if at_ = 0 then some ⟨bc.i, some bc.v, .M⟩
  else
    let nodes := if at_ = 2 then sortDesc (List.range g.size)
      else sortDesc (g.endE.map (fun e => e.1))
    let cands := nodes.flatMap (fun v =>
      [(⟨n, some v, .M⟩ : TBState), ⟨n, some v, .D⟩, ⟨n, some v, .I⟩])
    cands.foldl (fun acc st =>
      match acc with
      | none => some st
      | some cur => if stateVal rows st > stateVal rows cur then some st else acc) none

/-- One backward traceback walk (section 4.2): from the start cell, at each
step pick the table and predecessor that produced the current value, with
the fixed preference `M` over `D` over `I` and larger node ids first;
operations come out in forward order.  Global ends at the root with the
whole sequence consumed; SemiGlobal stops at row `0` (free leading
deletions); Local stops when a cell's score is no longer positive. -/
def traceGo (g : Graph) (rows : List Row) (S : List Symb) (ms mm go ge : Int)
    (at_ : Int) : Nat → TBState → List TOp → List TOp
  | 0, _, acc => acc
  | f + 1, st, acc =>
    let val := stateVal rows st
    if at_ = 0 ∧ val ≤ 0 then acc
    else
      match st.u with
      | none =>
          if st.i = 0 then acc
          else
            let c := S.getD (st.i - 1) 0
            let pr := rows.getD (st.i - 1) default
            let nxt : TBState :=
              if pr.mRoot + go == val then ⟨st.i - 1, none, .M⟩ else ⟨st.i - 1, none, .I⟩
            traceGo g rows S ms mm go ge at_ f nxt (.ins c :: acc)
      | some v =>
          match st.mat with
          | .M =>
              if st.i = 0 then acc
              else
                let c := S.getD (st.i - 1) 0
                let sub := subScore ms mm c (g.symAt v)
                let cands := [DPMat.M, DPMat.D, DPMat.I].flatMap (fun mt =>
                  (alignPreds g v).map (fun u => (⟨st.i - 1, u, mt⟩ : TBState)))
                match cands.find? (fun cst => stateVal rows cst == val - sub) with
                | some nxt =>
                    let op := if c == g.symAt v then TOp.mtch v else TOp.mism v c
                    traceGo g rows S ms mm go ge at_ f nxt (op :: acc)
                | none => acc
          | .I =>
              if st.i = 0 then acc
              else
                let c := S.getD (st.i - 1) 0
                let pr := rows.getD (st.i - 1) default
                let nxt : TBState :=
                  if pr.getM (some v) + go == val then ⟨st.i - 1, some v, .M⟩
                  else ⟨st.i - 1, some v, .I⟩
                traceGo g rows S ms mm go ge at_ f nxt (.ins c :: acc)
          | .D =>
              if at_ = 2 ∧ st.i = 0 then acc
              else
                let r := rows.getD st.i default
                let candsM := (alignPreds g v).map
                  (fun u => ((⟨st.i, u, DPMat.M⟩ : TBState), r.getM u + go))
                let candsD := (alignPreds g v).map
                  (fun u => ((⟨st.i, u, DPMat.D⟩ : TBState), r.getDel u + ge))
                match (candsM ++ candsD).find? (fun cc => cc.2 == val) with
                | some cc => traceGo g rows S ms mm go ge at_ f cc.1 (.del v :: acc)
                | none => acc

/-- Modelled from the spec (section 4.2, GraphAligner): align one sequence
against the graph and return its traceback. -/
def align (g : Graph) (S : List Symb) (at_ ms mm go ge : Int) : List TOp :=
  let order := topoOrder g
  let n := S.length
  let br := buildRows g order S ms mm go ge at_
  match chooseStart g br.1 n at_ br.2 with
  | none => []
  | some st => traceGo g br.1 S ms mm go ge at_ (n + g.size + 5) st []

/-- Modelled from the spec (section 4.4): the heaviest incoming weight sum
of node `v`, fuelled recursion over predecessors (`best[start] = 0`, so the
start-anchor edge contributes its own weight). -/
def bestScore (g : Graph) : Nat → Nat → Nat
  | 0, _ => 0
  | f + 1, v =>
      let cands := (if g.fromStartW v > 0 then [g.fromStartW v] else []) ++
        (g.preds v).map (fun e => bestScore g f e.1 + e.2)
      cands.foldl max 0

/-- `true` when candidate id `a` beats `b` in the tie-break (larger node
id; the start anchor loses to every node). -/
def idGtOpt : Option Nat → Option Nat → Bool
  | some a, some b => a > b
  | some _, none => true
  | _, _ => false

/-- Fold step selecting the candidate of maximal value, ties preferring
the larger node id (section 4.4's deterministic tie-break). -/
def pickPredC (cur : Option (Option Nat × Nat)) (cand : Option Nat × Nat) :
    Option (Option Nat × Nat) :=
  match cur with
  | none => some cand
  | some cu =>
      if cand.2 > cu.2 then some cand
      else if cand.2 == cu.2 && idGtOpt cand.1 cu.1 then some cand
      else cur

/-- Modelled from the spec (section 4.4): the predecessor chosen for `v`
on the heaviest path (`none` = start anchor). -/
def bestPredC (g : Graph) (f : Nat) (v : Nat) : Option Nat :=
  let cands : List (Option Nat × Nat) :=
    (if g.fromStartW v > 0 then [((none : Option Nat), g.fromStartW v)] else []) ++
      (g.preds v).map (fun e => (some e.1, bestScore g f e.1 + e.2))
  match cands.foldl pickPredC none with
  | none => none
  | some c => c.1

/-- Modelled from the spec (section 4.4): among the nodes wired to the end
anchor, the one with the greatest heaviest-path score (ties prefer the
larger id). -/
def endChoice (g : Graph) : Option Nat :=
  let cands := g.endE.map (fun e => (some e.1, bestScore g g.size e.1))
  match cands.foldl pickPredC none with
  | none => none
  | some c => c.1

/-- Backward walk along chosen predecessors, collecting symbols in forward
order. -/
def walkBack (g : Graph) : Nat → Option Nat → List Symb → List Symb
  | _, none, acc => acc
  | 0, some _, acc => acc
  | f + 1, some v, acc => walkBack g f (bestPredC g g.size v) (g.symAt v :: acc)

/-- Modelled from the spec (section 4.4, ConsensusExtractor): the heaviest
path of the graph, read off as its symbols in forward order. -/
def consensusOf (g : Graph) : List Symb :=
  match endChoice g with
  | none => []
  | some v => walkBack g g.size (some v) []

/-- Modelled from the spec (sections 2 and 4): fold one sequence into the
graph — the first sequence seeds the graph, later ones are aligned and
folded in; a zero-length sequence is not alignable (the interface has no
error channel, so it leaves the graph unchanged). -/
def foldSeq (at_ ms mm go ge : Int) (g : Graph) (s : List Symb) : Graph :=
  if g.size = 0 then seed s
  else if s.length = 0 then g
  else applyTrace g (align g s at_ ms mm go ge)

/-- Modelled from the spec (sections 2, 4 and 6): the untruncated
consensus of the input sequences. -/
def untruncatedConsensus (seqs : List (List Symb)) (at_ ms mm go ge : Int) : List Symb :=
  consensusOf (seqs.foldl (foldSeq at_ ms mm go ge) ⟨[], []⟩)

/-- Modelled from the spec (section 6) and the declaration of `poa_func`
in `src/src/lib.rs`: the foreign function computes the consensus, writes
at most `consensus_len` of its leading symbols into the caller's buffer,
and returns the number of symbols written; the returned list is the
buffer's contents after the call. -/
def poa_func (seqs : List (List Symb)) (buffer : List Symb) (consensus_len : Nat)
    (at_ ms mm go ge : Int) : Nat × List Symb :=
  let c := untruncatedConsensus seqs at_ ms mm go ge
  let k := min c.length consensus_len
  (k, c.take k ++ buffer.drop k)

/-- From `src/src/lib.rs`, `poa_consensus`: allocate a zero-filled buffer
of length `consensus_max_length`, call `poa_func` on it, and truncate the
buffer to the returned length. -/
def poa_consensus (seqs : List (List Symb)) (consensus_max_length : Nat)
    (alignment_type ms mm go ge : Int) : List Symb :=
  let consensus : List Symb := List.replicate consensus_max_length 0
  let r := poa_func seqs consensus consensus_max_length alignment_type ms mm go ge
  r.2.take r.1

/-- The protein input of `test_protein_consensus` in `src/src/lib.rs`
(byte values of `FNLKESWDDCQ`, `FNLKPSWDCQ`, `FNLKSPSWDDCQ`, `FNLKASWCQ`,
`FLKPSWDDCQ`, `FNLKPSWDADCQ`). -/
def protSeqs : List (List Symb) :=
  [[70, 78, 76, 75, 69, 83, 87, 68, 68, 67, 81],
   [70, 78, 76, 75, 80, 83, 87, 68, 67, 81],
   [70, 78, 76, 75, 83, 80, 83, 87, 68, 68, 67, 81],
   [70, 78, 76, 75, 65, 83, 87, 67, 81],
   [70, 76, 75, 80, 83, 87, 68, 68, 67, 81],
   [70, 78, 76, 75, 80, 83, 87, 68, 65, 68, 67, 81]]

/-- The arguments of one `poa_consensus` call. -/
structure CallArgs where
  seqs : List (List Symb)
  maxLen : Nat
  mode : Int
  ms : Int
  mm : Int
  go : Int
  ge : Int

/-- Run one call. -/
def runCall (a : CallArgs) : List Symb :=
  poa_consensus a.seqs a.maxLen a.mode a.ms a.mm a.go a.ge

/-- Run a whole sequence of calls, in order: `poa_consensus` keeps no state
between calls (`src/src/lib.rs` has no statics and the modelled engine
builds a fresh graph per call), so a run is just the list of the calls'
results. -/
def runCalls (cs : List CallArgs) : List (List Symb) := cs.map runCall

/-- The call as seen by the caller's frame: `poa_consensus` borrows `seqs`
by shared reference and passes const pointers to the engine, so the pair
(seqs after the call, returned consensus) is `(seqs, poa_consensus …)`;
the modelled engine reads the sequences and never writes them (spec
section 3: a sequence is immutable and not retained by the graph). -/
def poa_consensus_call (seqs : List (List Symb)) (consensus_max_length : Nat)
    (alignment_type ms mm go ge : Int) : List (List Symb) × List Symb :=
  (seqs, poa_consensus seqs consensus_max_length alignment_type ms mm go ge)

theorem seedNodesFrom_length (i0 : Nat) (s : List Symb) :
    (seedNodesFrom i0 s).length = s.length := by
  induction s generalizing i0 with
  | nil => rfl
  | cons c rest ih => simp [seedNodesFrom, ih]

theorem seed_size (s : List Symb) : (seed s).size = s.length := by
  simp [seed, Graph.size, seedNodesFrom_length]

theorem seedNodesFrom_getD (s : List Symb) (i0 k : Nat) (h : k < s.length) :
    (seedNodesFrom i0 s).getD k default =
      { symbol := s.getD k 0,
        inE := if i0 + k = 0 then [] else [(i0 + k - 1, 1)],
        fromStart := if i0 + k = 0 then 1 else 0,
        aligned := [] } := by
  induction s generalizing i0 k with
  | nil => simp at h
  | cons c rest ih =>
      cases k with
      | zero => simp [seedNodesFrom]
      | succ j =>
          have hj : j < rest.length := by simpa using h
          have harith : i0 + 1 + j = i0 + (j + 1) := by omega
          simp only [seedNodesFrom, List.getD_cons_succ, List.getD_cons_succ]
          rw [ih (i0 + 1) j hj, harith]

theorem seed_nodeAt (s : List Symb) (k : Nat) (h : k < s.length) :
    (seed s).nodeAt k =
      { symbol := s.getD k 0,
        inE := if k = 0 then [] else [(k - 1, 1)],
        fromStart := if k = 0 then 1 else 0,
        aligned := [] } := by
  have h0 := seedNodesFrom_getD s 0 k h
  simpa [seed, Graph.nodeAt] using h0

theorem seed_bestScore (s : List Symb) (f k : Nat) (hk : k < s.length) (hf : k < f) :
    bestScore (seed s) f k = k + 1 := by
  induction f generalizing k with
  | zero => omega
  | succ f ih =>
      cases k with
      | zero =>
          simp [bestScore, Graph.fromStartW, Graph.preds, seed_nodeAt s 0 hk]
      | succ j =>
          have hj : j < s.length := by omega
          simp [bestScore, Graph.fromStartW, Graph.preds, seed_nodeAt s (j + 1) hk,
            ih j hj (by omega)]

theorem seed_bestPredC (s : List Symb) (f k : Nat) (hk : k < s.length) :
    bestPredC (seed s) f k = if k = 0 then none else some (k - 1) := by
  cases k with
  | zero =>
      simp [bestPredC, Graph.fromStartW, Graph.preds, seed_nodeAt s 0 hk, pickPredC]
  | succ j =>
      simp [bestPredC, Graph.fromStartW, Graph.preds, seed_nodeAt s (j + 1) hk, pickPredC]

theorem seed_symAt (s : List Symb) (k : Nat) (h : k < s.length) :
    (seed s).symAt k = s.getD k 0 := by
  simp [Graph.symAt, seed_nodeAt s k h]

theorem seed_walkBack (s : List Symb) (k : Nat) (hk : k < s.length) :
    ∀ (f : Nat) (acc : List Symb), k < f →
      walkBack (seed s) f (some k) acc = s.take (k + 1) ++ acc := by
  induction k with
  | zero =>
      intro f acc hf
      match f, hf with
      | f + 1, _ =>
          rw [walkBack, seed_bestPredC s _ 0 hk]
          simp [walkBack, seed_symAt s 0 hk, List.take_succ, List.getD]
          cases s with
          | nil => simp at hk
          | cons a rest => simp
  | succ j ih =>
      intro f acc hf
      match f, hf with
      | f + 1, _ =>
          rw [walkBack, seed_bestPredC s _ (j + 1) hk]
          simp only [Nat.succ_ne_zero, if_false, Nat.succ_sub_one]
          rw [ih (by omega) f _ (by omega)]
          rw [seed_symAt s (j + 1) hk]
          have hsome : s[j + 1]? = some s[j + 1] := List.getElem?_eq_getElem hk
          have hgetD : s.getD (j + 1) 0 = s[j + 1] := by simp [hsome]
          rw [hgetD]
          rw [show s.take (j + 1 + 1) = s.take (j + 1) ++ s[j + 1]?.toList from List.take_succ]
          rw [hsome, List.append_assoc]
          rfl

theorem consensusOf_seed (s : List Symb) (h : s ≠ []) : consensusOf (seed s) = s := by
  have hn : 0 < s.length := List.length_pos.mpr h
  have hend : (seed s).endE = [(s.length - 1, 1)] := by
    simp only [seed]
    rw [if_neg (by omega : ¬s.length = 0)]
  have hchoice : endChoice (seed s) = some (s.length - 1) := by
    simp [endChoice, hend, pickPredC]
  simp only [consensusOf, hchoice]
  rw [seed_size]
  rw [seed_walkBack s (s.length - 1) (by omega) s.length [] (by omega)]
  have h1 : s.length - 1 + 1 = s.length := by omega
  rw [h1, List.take_length, List.append_nil]

/-- C1: for every input sequence list, maximum length bound, alignment
mode and score quadruple, the vector returned by `poa_consensus` has
length less than or equal to the supplied maximum consensus length. -/
theorem poa_consensus_length_le_max (seqs : List (List Symb)) (maxLen : Nat)
    (at_ ms mm go ge : Int) :
    (poa_consensus seqs maxLen at_ ms mm go ge).length ≤ maxLen := by
  simp only [poa_consensus, poa_func, List.length_take, List.length_append,
    List.length_drop, List.length_replicate]
  omega

/-- C2, counterexample: on an empty sequence list the call returns the
empty vector as an ordinary successful result — no `InvalidInput` error is
yielded to the caller (the interface has no error channel at all), which
refutes the claim at this input. -/
theorem poa_consensus_empty_list_succeeds :
    poa_consensus [] 20 1 5 (-4) (-3) (-1) = [] := by decide

/-- C2, amended: `poa_consensus` cannot signal any error — its result type
is a plain vector; on an empty sequence list, or on a list whose only
sequence has zero length, it returns the empty vector successfully. -/
theorem poa_consensus_degenerate_returns_nil (maxLen : Nat) (at_ ms mm go ge : Int) :
    poa_consensus [] maxLen at_ ms mm go ge = [] ∧
      poa_consensus [[]] maxLen at_ ms mm go ge = [] := by
  constructor <;>
    simp [poa_consensus, poa_func, untruncatedConsensus, foldSeq, Graph.size, seed,
      seedNodesFrom, consensusOf, endChoice]

/-- C3: whenever the untruncated consensus is longer than the supplied
maximum length bound, the returned sequence equals the prefix of the
untruncated consensus of length exactly the bound; nothing is reported to
the caller (the interface has no error channel). -/
theorem poa_consensus_truncates (seqs : List (List Symb)) (maxLen : Nat)
    (at_ ms mm go ge : Int)
    (h : maxLen < (untruncatedConsensus seqs at_ ms mm go ge).length) :
    poa_consensus seqs maxLen at_ ms mm go ge =
      (untruncatedConsensus seqs at_ ms mm go ge).take maxLen ∧
      (poa_consensus seqs maxLen at_ ms mm go ge).length = maxLen := by
  have hk : min (untruncatedConsensus seqs at_ ms mm go ge).length maxLen = maxLen := by
    omega
  constructor
  · simp only [poa_consensus, poa_func, hk]
    rw [List.drop_eq_nil_iff.mpr (by simp), List.append_nil, List.take_take, Nat.min_self]
  · simp [poa_consensus, poa_func]
    omega

/-- C3, witness: with single input `[1, 2, 3]` and bound `2` the
untruncated consensus has length `3 > 2` and the call returns its prefix
of length exactly `2`. -/
theorem poa_consensus_truncates_witness :
    2 < (untruncatedConsensus [[1, 2, 3]] 1 5 (-4) (-3) (-1)).length ∧
      (poa_consensus [[1, 2, 3]] 2 1 5 (-4) (-3) (-1) =
        (untruncatedConsensus [[1, 2, 3]] 1 5 (-4) (-3) (-1)).take 2 ∧
        (poa_consensus [[1, 2, 3]] 2 1 5 (-4) (-3) (-1)).length = 2) :=
  ⟨by decide, poa_consensus_truncates [[1, 2, 3]] 2 1 5 (-4) (-3) (-1) (by decide)⟩

set_option maxRecDepth 10000 in
/-- C5: on the protein input of `test_protein_consensus` (mode Global,
scores 5, -4, -3, -1, bound 20), the modelled engine returns exactly
`FNLKPSWDDCQ`, as the claim states. -/
theorem poa_consensus_protein_eval :
    poa_consensus protSeqs 20 1 5 (-4) (-3) (-1) =
      [70, 78, 76, 75, 80, 83, 87, 68, 68, 67, 81] := by decide

/-- C6: for a single non-empty input sequence and any alignment mode in
Local, Global, SemiGlobal, with a bound at least the sequence length, the
returned consensus equals the input sequence exactly (the first sequence
seeds the graph as a chain, and the heaviest path of a chain is the chain). -/
theorem poa_consensus_single_sequence (s : List Symb) (at_ : Int)
    (hmode : at_ = 0 ∨ at_ = 1 ∨ at_ = 2) (hs : s ≠ []) (maxLen : Nat)
    (hlen : s.length ≤ maxLen) (ms mm go ge : Int) :
    poa_consensus [s] maxLen at_ ms mm go ge = s := by
  have hc : untruncatedConsensus [s] at_ ms mm go ge = s := consensusOf_seed s hs
  have hk : min s.length maxLen = s.length := by omega
  simp only [poa_consensus, poa_func, hc, hk, List.take_length]
  exact List.take_left' rfl

/-- C6, witness: the single sequence `[65]` in Local mode with bound 1. -/
theorem poa_consensus_single_sequence_witness :
    (((0 : Int) = 0 ∨ (0 : Int) = 1 ∨ (0 : Int) = 2) ∧ ([65] : List Symb) ≠ [] ∧
        ([65] : List Symb).length ≤ 1) ∧
      poa_consensus [[65]] 1 0 5 (-4) (-3) (-1) = [65] :=
  ⟨⟨Or.inl rfl, by decide, by decide⟩,
    poa_consensus_single_sequence [65] 0 (Or.inl rfl) (by decide) 1 (by decide)
      5 (-4) (-3) (-1)⟩

/-- C7: the computation is deterministic and stateless across calls — in a
run of any sequence of calls, the result at each position depends only on
that call's own arguments, so calls separated by other calls with the same
arguments produce byte-identical output. -/
theorem poa_consensus_stateless_deterministic (pre post : List CallArgs) (a : CallArgs) :
    (runCalls (pre ++ a :: post)).getD pre.length [] = runCall a := by
  induction pre with
  | nil => rfl
  | cons b rest ih => simpa [runCalls] using ih

/-- C8, counterexample: with the unrecognized alignment-mode value 3 the
call still returns a consensus (`[65]`) as an ordinary successful result —
no `InvalidInput` error is reported and output is produced, which refutes
the claim at this input. -/
theorem poa_consensus_unrecognized_mode_succeeds :
    poa_consensus [[65]] 5 3 5 (-4) (-3) (-1) = [65] := by decide

/-- C8, amended: unrecognized alignment-mode values and a non-positive
maximum-length bound are not rejected — the interface has no error
channel; a zero bound yields the empty vector successfully, and an
unrecognized mode (such as 3) still yields a consensus. -/
theorem poa_consensus_invalid_args_not_rejected (seqs : List (List Symb))
    (at_ ms mm go ge : Int) :
    poa_consensus seqs 0 at_ ms mm go ge = [] ∧
      poa_consensus [[65]] 5 3 ms mm go ge = [65] := by
  constructor
  · simp [poa_consensus, poa_func]
  · rfl

/-- C9: the returned vector's length is the minimum of the length reported
by `poa_func` and the supplied bound; in particular a bound of 0 yields
the empty vector successfully. -/
theorem poa_consensus_length_min_of_reported (seqs : List (List Symb)) (maxLen : Nat)
    (at_ ms mm go ge : Int) :
    (poa_consensus seqs maxLen at_ ms mm go ge).length =
        min (poa_func seqs (List.replicate maxLen 0) maxLen at_ ms mm go ge).1 maxLen ∧
      poa_consensus seqs 0 at_ ms mm go ge = [] := by
  constructor
  · simp only [poa_consensus, poa_func, List.length_take, List.length_append,
      List.length_drop, List.length_replicate]
    omega
  · simp [poa_consensus, poa_func]

/-- C10: the call never modifies its input sequences — the caller's `seqs`
is unchanged after the call returns (shared borrow on the Rust side, const
pointers across the boundary, and a purely functional modelled engine). -/
theorem poa_consensus_call_preserves_seqs (seqs : List (List Symb)) (maxLen : Nat)
    (at_ ms mm go ge : Int) :
    (poa_consensus_call seqs maxLen at_ ms mm go ge).1 = seqs := rfl
